import Mathlib

/-!
# Verification of the sharky slot allocator

Shallow embedding of the bitmap-based free-slot allocator that appears in two
variants in the repository:

* variant 0: `src/unnamed/part_000` (package `sharky`, externally synchronized;
  `newSlots` takes a target `size`, `load` pads the bitmap with `0xff` bytes up
  to that size and rescans the head, `pop` allocates the head, `push` frees a
  slot, `next` scans for the lowest free slot at or above the head);
* variant 1: `src/pkg/sharky/slots.go` (mutex-guarded; `load` derives the size
  from the byte length, `Next`/`Use` split allocation in two steps, `Free`
  frees a slot, `next` auto-extends by one byte when the scan finds nothing).

Convention (from the source comments): bit `i % 8` of byte `i / 8` is `1` when
slot `i` is FREE and `0` when it is used.

Machine integers: Go `uint32` sizes and indices are modelled as `Nat`; the
wraparound at `2 ^ 32` (reachable only after about `2 ^ 29` byte-wise grow
steps) is not modelled.  Go slice indexing panics when out of range: the
internal, head-driven accesses (`pop`, `next`) stay in bounds on every state
whose size is at most eight times the byte length (proved below for all
reachable states), so they are modelled with total `List.getD` / `List.set`;
the operations taking a caller-supplied slot (`push`, `Free`, `Use`) can
genuinely go out of range, so they return `Option` — `none` models the Go
panic, which aborts before any byte of the bitmap is written.
-/

set_option maxRecDepth 8000

namespace Sharky

/-- Allocator state shared by both variants: `data` is the byte slice serving
as bitvector, `head` the first-free-slot cursor, `size` the slot count. The
`file` field of the Go structs carries no allocator state and is dropped;
`save` returns the bytes written and `load` takes the bytes read. -/
structure Slots where
  data : List Nat
  head : Nat
  size : Nat
deriving Repr, DecidableEq

/-- Byte holding the bit of slot `i` (Go `sl.data[i/8]`, in-bounds by the
well-formedness invariant wherever the Go code reaches it). -/
def byteAt (d : List Nat) (i : Nat) : Nat :=
  d.getD (i / 8) 0

/-- Go `sl.data[i/8] & (1 << (i % 8)) > 0`: slot `i` is free (bit set). -/
def bitFree (d : List Nat) (i : Nat) : Bool :=
  (byteAt d i).testBit (i % 8)

/-- Go `b | (1 << k)` on a byte. -/
def setFreeByte (b k : Nat) : Nat :=
  b ||| (1 <<< k)

/-- Go `b & ^(1 << k)` on a byte: the complement of the one-bit mask on the
8-bit type `byte` is `255 ^^^ (1 <<< k)`. -/
def setUsedByte (b k : Nat) : Nat :=
  b &&& (255 ^^^ (1 <<< k))

/-- Go `sl.data[i/8] |= 1 << (i % 8)`: mark slot `i` free. -/
def setBitFree (d : List Nat) (i : Nat) : List Nat :=
  d.set (i / 8) (setFreeByte (byteAt d i) (i % 8))

/-- Go `sl.data[i/8] &= ^(1 << (i % 8))`: mark slot `i` used. -/
def setBitUsed (d : List Nat) (i : Nat) : List Nat :=
  d.set (i / 8) (setUsedByte (byteAt d i) (i % 8))

/-- Loop body of `next`: `for i := start; i < size; i++ { if free(i) { return i } };
return size`, driven by fuel.  `scanFree` below always supplies fuel
`size - i`, which is exactly the number of remaining iterations, so the fuel
never runs out before the Go loop condition fails. -/
def scanFreeGo (d : List Nat) (size : Nat) : Nat → Nat → Nat
  | 0, _ => size
  | fuel + 1, i => if bitFree d i then i else scanFreeGo d size fuel (i + 1)

/-- Go `next`-style scan: lowest free slot in `[i, size)`, or `size` if none. -/
def scanFree (d : List Nat) (size i : Nat) : Nat :=
  scanFreeGo d size (size - i) i

/-- Loop body of variant 0 `load`'s padding:
`for i := len(data)*8; i < size; i += 8 { data = append(data, 0xff) }`,
driven by fuel.  `padFree` supplies fuel `size`, an upper bound on the number
of iterations (each append raises `8 * length` by 8), so the fuel never runs
out before the Go loop condition fails. -/
def padFreeGo (size : Nat) : Nat → List Nat → List Nat
  | 0, d => d
  | fuel + 1, d => if 8 * d.length < size then padFreeGo size fuel (d ++ [255]) else d

/-- Variant 0 `load` padding: append `0xff` (all-free) bytes until the bitmap
covers `size` bits. -/
def padFree (d : List Nat) (size : Nat) : List Nat :=
  padFreeGo size size d

/-! ## Variant 0: `src/unnamed/part_000` -/

/-- `newSlots(file, size)`: empty bitmap, head 0 (zero value), given size. -/
def newSlots0 (size : Nat) : Slots :=
  { data := [], head := 0, size := size }

/-- Variant 0 `next()`: lowest free slot at or above the head, or `size`. -/
def next0 (s : Slots) : Nat :=
  scanFree s.data s.size s.head

/-- Variant 0 `load()`: take the bytes read from the file, pad with `0xff`
bytes up to `size` bits, then `sl.head = sl.next()` (scanning from the current
head, which is 0 on a freshly constructed instance). `sl.size` is unchanged. -/
def load0 (s : Slots) (bytes : List Nat) : Slots :=
  let d := padFree bytes s.size
  { data := d, head := scanFree d s.size s.head, size := s.size }

/-- Variant 0 `save()`: the byte sequence written to the file (the file is
truncated first, so the file content afterwards is exactly this). -/
def save0 (s : Slots) : List Nat :=
  s.data

/-- Variant 0 `push(head)`: lower the head cursor to the released slot if
below, then set its bit to free.  Go performs no range check: when
`slot / 8 ≥ len(data)` the write panics (`none`); the bitmap is not written in
that case (the prior head assignment is a no-op whenever `head ≤ size ≤ slot`,
which is the situation of an out-of-range slot on a well-formed state). -/
def push0 (s : Slots) (slot : Nat) : Option Slots :=
  let h := if slot < s.head then slot else s.head
  if slot / 8 < s.data.length then
    some { data := setBitFree s.data slot, head := h, size := s.size }
  else
    none

/-- Variant 0 `pop()`: if `head ≥ size` return silently; otherwise clear the
head's bit (mark used) and rescan from the old head for the next free slot. -/
def pop0 (s : Slots) : Slots :=
  if s.head < s.size then
    let d := setBitUsed s.data s.head
    { data := d, head := scanFree d s.size s.head, size := s.size }
  else
    s

/-! ## Variant 1: `src/pkg/sharky/slots.go` -/

/-- slots.go `newSlots(file)`: zero value, everything empty. -/
def newSlots1 : Slots :=
  { data := [], head := 0, size := 0 }

/-- slots.go `load()`: bitmap is the bytes read, `size = len(data) * 8`, and
the head cursor is left untouched (no scan happens at load time). -/
def load1 (s : Slots) (bytes : List Nat) : Slots :=
  { data := bytes, head := s.head, size := 8 * bytes.length }

/-- slots.go `Save()`: the byte sequence written (after truncate + seek). -/
def save1 (s : Slots) : List Nat :=
  s.data

/-- slots.go `Free(slot)`: same body as variant 0 `push`. -/
def Free1 (s : Slots) (slot : Nat) : Option Slots :=
  let h := if slot < s.head then slot else s.head
  if slot / 8 < s.data.length then
    some { data := setBitFree s.data slot, head := h, size := s.size }
  else
    none

/-- slots.go `Use(slot)`: clear the slot's bit (mark used), head untouched.
No range check in Go; `none` models the out-of-range panic. -/
def Use1 (s : Slots) (slot : Nat) : Option Slots :=
  if slot / 8 < s.data.length then
    some { s with data := setBitUsed s.data slot }
  else
    none

/-- slots.go `extend(n)`: `size += n*8`, then append `n` bytes of `0xff`. -/
def extend1 (s : Slots) (n : Nat) : Slots :=
  { data := s.data ++ List.replicate n 255, head := s.head, size := s.size + 8 * n }

/-- slots.go private `next()`: scan from the head; on success return the index
found without touching the state; otherwise `extend(1)` and return
`sl.size - 8` (the first slot of the fresh byte, i.e. the old size). -/
def next1 (s : Slots) : Nat × Slots :=
  let i := scanFree s.data s.size s.head
  if i < s.size then
    (i, s)
  else
    let t := extend1 s 1
    (t.size - 8, t)

/-- slots.go `Next()`: `sl.head = sl.next(); return sl.head`. -/
def Next1 (s : Slots) : Nat × Slots :=
  let p := next1 s
  (p.1, { p.2 with head := p.1 })

/-! ## Invariants -/

/-- The head is a sound lower bound: every slot strictly below it is used. -/
def HeadLB (s : Slots) : Prop :=
  ∀ i < s.head, bitFree s.data i = false

/-- Well-formedness of a variant 0 state: the byte slice covers all `size`
slots (so head-driven indexing stays in bounds) and the head does not pass the
size. -/
def Wf0 (s : Slots) : Prop :=
  s.size ≤ 8 * s.data.length ∧ s.head ≤ s.size

/-- Well-formedness of a variant 1 state: the size is exactly the bit length
of the byte slice (slots.go keeps `size = len(data) * 8` everywhere) and the
head does not pass the size. -/
def Wf1 (s : Slots) : Prop :=
  8 * s.data.length = s.size ∧ s.head ≤ s.size

/-- Full invariant of a variant 0 state. -/
def Inv0 (s : Slots) : Prop :=
  HeadLB s ∧ Wf0 s

/-- Full invariant of a variant 1 state. -/
def Inv1 (s : Slots) : Prop :=
  HeadLB s ∧ Wf1 s

instance (s : Slots) : Decidable (HeadLB s) :=
  Nat.decidableBallLT s.head fun i _ => bitFree s.data i = false

instance (s : Slots) : Decidable (Wf0 s) := by
  unfold Wf0
  infer_instance

instance (s : Slots) : Decidable (Wf1 s) := by
  unfold Wf1
  infer_instance

instance (s : Slots) : Decidable (Inv0 s) := by
  unfold Inv0 Wf0
  infer_instance

instance (s : Slots) : Decidable (Inv1 s) := by
  unfold Inv1 Wf1
  infer_instance

/-- One mutating operation of variant 0.  `load` is constrained to the
freshly-constructed head 0, matching the source comment "called after init". -/
inductive Step0 : Slots → Slots → Prop
  | load (s : Slots) (bytes : List Nat) : s.head = 0 → Step0 s (load0 s bytes)
  | pop (s : Slots) : Step0 s (pop0 s)
  | push (s : Slots) (slot : Nat) (s' : Slots) : push0 s slot = some s' → Step0 s s'

/-- One mutating operation of variant 1 (same reading of `load`). -/
inductive Step1 : Slots → Slots → Prop
  | load (s : Slots) (bytes : List Nat) : s.head = 0 → Step1 s (load1 s bytes)
  | free (s : Slots) (slot : Nat) (s' : Slots) : Free1 s slot = some s' → Step1 s s'
  | use (s : Slots) (slot : Nat) (s' : Slots) : Use1 s slot = some s' → Step1 s s'
  | next (s : Slots) : Step1 s (Next1 s).2
  | ext (s : Slots) (n : Nat) : Step1 s (extend1 s n)

/-- Variant 0 states reachable from a freshly constructed-and-loaded
allocator by any sequence of `pop` (Allocate) and `push` (Release). -/
inductive Reach0 : Slots → Prop
  | loaded (size : Nat) (bytes : List Nat) : Reach0 (load0 (newSlots0 size) bytes)
  | pop (s : Slots) : Reach0 s → Reach0 (pop0 s)
  | push (s : Slots) (slot : Nat) (s' : Slots) : Reach0 s → push0 s slot = some s' → Reach0 s'

/-! ## Lemmas about the free-slot scan -/

theorem scanFreeGo_zero (d : List Nat) (size i : Nat) : scanFreeGo d size 0 i = size :=
  rfl

theorem scanFreeGo_le (d : List Nat) (size : Nat) :
    ∀ fuel i, fuel + i = size → scanFreeGo d size fuel i ≤ size := by
  intro fuel
  induction fuel with
  | zero => intro i _; exact Nat.le_refl size
  | succ f ih =>
    intro i hf
    unfold scanFreeGo
    by_cases hb : bitFree d i = true
    · simp only [hb, if_true]
      omega
    · simp only [Bool.not_eq_true] at hb
      simp only [hb, if_false]
      exact ih (i + 1) (by omega)

theorem scanFree_le (d : List Nat) (size i : Nat) : scanFree d size i ≤ size := by
  unfold scanFree
  by_cases h : i ≤ size
  · exact scanFreeGo_le d size (size - i) i (by omega)
  · have : size - i = 0 := by omega
    rw [this]
    exact Nat.le_refl size

theorem scanFreeGo_ge (d : List Nat) (size : Nat) :
    ∀ fuel i, fuel + i = size → i ≤ scanFreeGo d size fuel i := by
  intro fuel
  induction fuel with
  | zero => intro i hf; rw [scanFreeGo_zero]; omega
  | succ f ih =>
    intro i hf
    unfold scanFreeGo
    by_cases hb : bitFree d i = true
    · simp only [hb, if_true]; exact Nat.le_refl i
    · simp only [Bool.not_eq_true] at hb
      simp only [hb, if_false]
      exact Nat.le_trans (Nat.le_succ i) (ih (i + 1) (by omega))

theorem scanFree_ge (d : List Nat) (size i : Nat) (h : i ≤ size) :
    i ≤ scanFree d size i :=
  scanFreeGo_ge d size (size - i) i (by omega)

theorem scanFreeGo_not_free (d : List Nat) (size : Nat) :
    ∀ fuel i j, size ≤ fuel + i → i ≤ j → j < scanFreeGo d size fuel i →
      bitFree d j = false := by
  intro fuel
  induction fuel with
  | zero =>
    intro i j hs hij hj
    rw [scanFreeGo_zero] at hj
    omega
  | succ f ih =>
    intro i j hs hij hj
    unfold scanFreeGo at hj
    by_cases hb : bitFree d i = true
    · simp only [hb, if_true] at hj; omega
    · simp only [Bool.not_eq_true] at hb
      simp only [hb, if_false] at hj
      rcases Nat.eq_or_lt_of_le hij with rfl | hlt
      · exact hb
      · exact ih (i + 1) j (by omega) hlt hj

theorem scanFree_not_free (d : List Nat) (size i j : Nat) (hij : i ≤ j)
    (hj : j < scanFree d size i) : bitFree d j = false :=
  scanFreeGo_not_free d size (size - i) i j (by omega) hij hj

theorem scanFreeGo_free (d : List Nat) (size : Nat) :
    ∀ fuel i, size ≤ fuel + i → scanFreeGo d size fuel i < size →
      bitFree d (scanFreeGo d size fuel i) = true := by
  intro fuel
  induction fuel with
  | zero =>
    intro i _ h
    rw [scanFreeGo_zero] at h
    omega
  | succ f ih =>
    intro i hs h
    unfold scanFreeGo at h ⊢
    by_cases hb : bitFree d i = true
    · simp only [hb, if_true]
    · simp only [Bool.not_eq_true] at hb
      simp only [hb, if_false] at h ⊢
      exact ih (i + 1) (by omega) h

theorem scanFree_free (d : List Nat) (size i : Nat) (h : scanFree d size i < size) :
    bitFree d (scanFree d size i) = true :=
  scanFreeGo_free d size (size - i) i (by omega) h

theorem scanFree_unfold (d : List Nat) (size i : Nat) (h : i < size) :
    scanFree d size i = if bitFree d i then i else scanFree d size (i + 1) := by
  unfold scanFree
  have hf : size - i = (size - (i + 1)) + 1 := by omega
  rw [hf]
  rfl

theorem scanFree_eq_self (d : List Nat) (size i : Nat) (h : i < size)
    (hb : bitFree d i = true) : scanFree d size i = i := by
  rw [scanFree_unfold d size i h, hb, if_pos rfl]

theorem scanFree_gt (d : List Nat) (size i : Nat) (h : i < size)
    (hb : bitFree d i = false) : i < scanFree d size i := by
  rw [scanFree_unfold d size i h, hb]
  simp only [Bool.false_eq_true, if_false]
  exact Nat.lt_of_lt_of_le (Nat.lt_succ_self i) (scanFree_ge d size (i + 1) (by omega))

/-! ## Lemmas about the load-time padding -/

theorem padFreeGo_ge (size : Nat) :
    ∀ fuel d, size ≤ 8 * d.length + 8 * fuel →
      size ≤ 8 * (padFreeGo size fuel d).length := by
  intro fuel
  induction fuel with
  | zero => intro d h; exact h
  | succ f ih =>
    intro d h
    unfold padFreeGo
    by_cases hc : 8 * d.length < size
    · simp only [hc, if_true]
      exact ih (d ++ [255]) (by simp; omega)
    · simp only [hc, if_false]
      omega

theorem padFree_ge (d : List Nat) (size : Nat) : size ≤ 8 * (padFree d size).length :=
  padFreeGo_ge size size d (by omega)

theorem padFreeGo_of_le (size : Nat) (d : List Nat) (h : size ≤ 8 * d.length) :
    ∀ fuel, padFreeGo size fuel d = d := by
  intro fuel
  cases fuel with
  | zero => rfl
  | succ f =>
    unfold padFreeGo
    simp only [Nat.not_lt_of_le h, if_false]

theorem padFree_of_le (d : List Nat) (size : Nat) (h : size ≤ 8 * d.length) :
    padFree d size = d :=
  padFreeGo_of_le size d h size

theorem padFreeGo_length_ge (size : Nat) :
    ∀ fuel d, d.length ≤ (padFreeGo size fuel d).length := by
  intro fuel
  induction fuel with
  | zero => intro d; exact Nat.le_refl _
  | succ f ih =>
    intro d
    unfold padFreeGo
    by_cases hc : 8 * d.length < size
    · simp only [hc, if_true]
      calc d.length ≤ (d ++ [255]).length := by simp
        _ ≤ _ := ih (d ++ [255])
    · simp only [hc, if_false]
      exact Nat.le_refl _

theorem padFree_length_ge (d : List Nat) (size : Nat) :
    d.length ≤ (padFree d size).length :=
  padFreeGo_length_ge size size d

/-! ## Byte-level lemmas -/

theorem testBit_setFreeByte_self (b k : Nat) : (setFreeByte b k).testBit k = true := by
  unfold setFreeByte
  rw [Nat.one_shiftLeft, Nat.testBit_lor, Nat.testBit_two_pow_self, Bool.or_true]

theorem testBit_setFreeByte_ne (b k m : Nat) (h : m ≠ k) :
    (setFreeByte b k).testBit m = b.testBit m := by
  unfold setFreeByte
  rw [Nat.one_shiftLeft, Nat.testBit_lor, Nat.testBit_two_pow_of_ne (Ne.symm h),
    Bool.or_false]

theorem testBit_255 (k : Nat) (h : k < 8) : (255 : Nat).testBit k = true := by
  have h255 : (255 : Nat) = 2 ^ 8 - 1 := rfl
  rw [h255, Nat.testBit_two_pow_sub_one]
  simpa using h

theorem testBit_setUsedByte_self (b k : Nat) (h : k < 8) :
    (setUsedByte b k).testBit k = false := by
  unfold setUsedByte
  rw [Nat.one_shiftLeft, Nat.testBit_land, Nat.testBit_xor, testBit_255 k h,
    Nat.testBit_two_pow_self]
  simp

theorem testBit_setUsedByte_ne (b k m : Nat) (hm : m < 8) (h : m ≠ k) :
    (setUsedByte b k).testBit m = b.testBit m := by
  unfold setUsedByte
  rw [Nat.one_shiftLeft, Nat.testBit_land, Nat.testBit_xor, testBit_255 m hm,
    Nat.testBit_two_pow_of_ne (Ne.symm h)]
  simp

theorem setFreeByte_of_testBit (b k : Nat) (hb : b.testBit k = true) :
    setFreeByte b k = b := by
  apply Nat.eq_of_testBit_eq
  intro m
  by_cases h : m = k
  · subst h
    rw [testBit_setFreeByte_self, hb]
  · exact testBit_setFreeByte_ne b k m h

theorem setFreeByte_idem (b k : Nat) : setFreeByte (setFreeByte b k) k = setFreeByte b k :=
  setFreeByte_of_testBit _ k (testBit_setFreeByte_self b k)

/-! ## Bitmap-level lemmas -/

theorem length_setBitFree (d : List Nat) (i : Nat) :
    (setBitFree d i).length = d.length :=
  List.length_set d (i / 8) _

theorem length_setBitUsed (d : List Nat) (i : Nat) :
    (setBitUsed d i).length = d.length :=
  List.length_set d (i / 8) _

theorem byteAt_setBitFree_self (d : List Nat) (i : Nat) (h : i / 8 < d.length) :
    byteAt (setBitFree d i) i = setFreeByte (byteAt d i) (i % 8) := by
  unfold byteAt setBitFree
  rw [List.getD_eq_getElem?_getD, List.getElem?_set, if_pos rfl, if_pos h]
  rfl

theorem bitFree_setBitFree_self (d : List Nat) (i : Nat) (h : i / 8 < d.length) :
    bitFree (setBitFree d i) i = true := by
  unfold bitFree
  rw [byteAt_setBitFree_self d i h]
  exact testBit_setFreeByte_self _ _

/-- Writing the bit of slot `i` through a byte transformer that leaves all
other bit positions of the byte alone leaves every other slot's bit alone. -/
theorem bitFree_set_ne (d : List Nat) (i j : Nat) (f : Nat → Nat → Nat)
    (hf : ∀ b m, m < 8 → m ≠ i % 8 → (f b (i % 8)).testBit m = b.testBit m)
    (hne : j ≠ i) :
    bitFree (d.set (i / 8) (f (byteAt d i) (i % 8))) j = bitFree d j := by
  unfold bitFree byteAt
  simp only [List.getD_eq_getElem?_getD]
  rw [List.getElem?_set]
  by_cases hd : i / 8 = j / 8
  · rw [if_pos hd]
    have hm : j % 8 ≠ i % 8 := by
      intro hmod
      have e1 : 8 * (i / 8) + i % 8 = i := Nat.div_add_mod i 8
      have e2 : 8 * (j / 8) + j % 8 = j := Nat.div_add_mod j 8
      omega
    by_cases hlen : i / 8 < d.length
    · rw [if_pos hlen, Option.getD_some, hf _ _ (Nat.mod_lt j (by omega)) hm, hd]
    · rw [if_neg hlen, Option.getD_none]
      have hjn : d[j / 8]? = none := List.getElem?_eq_none (by omega)
      rw [hjn, Option.getD_none]
  · rw [if_neg hd]

theorem bitFree_setBitFree_ne (d : List Nat) (i j : Nat) (hne : j ≠ i) :
    bitFree (setBitFree d i) j = bitFree d j :=
  bitFree_set_ne d i j setFreeByte (fun b m _ hm => testBit_setFreeByte_ne b _ m hm) hne

theorem bitFree_setBitUsed_ne (d : List Nat) (i j : Nat) (hne : j ≠ i) :
    bitFree (setBitUsed d i) j = bitFree d j :=
  bitFree_set_ne d i j setUsedByte (fun b m hlt hm => testBit_setUsedByte_ne b _ m hlt hm) hne

theorem bitFree_setBitUsed_self (d : List Nat) (i : Nat) :
    bitFree (setBitUsed d i) i = false := by
  unfold bitFree byteAt setBitUsed
  rw [List.getD_eq_getElem?_getD, List.getElem?_set, if_pos rfl]
  by_cases hlen : i / 8 < d.length
  · rw [if_pos hlen, Option.getD_some]
    exact testBit_setUsedByte_self _ _ (Nat.mod_lt i (by omega))
  · rw [if_neg hlen, Option.getD_none]
    exact Nat.zero_testBit _

theorem set_getD_self (l : List Nat) (n : Nat) : l.set n (l.getD n 0) = l := by
  induction l generalizing n with
  | nil => rfl
  | cons a t ih =>
    cases n with
    | zero => rfl
    | succ m =>
      show a :: t.set m (t.getD m 0) = a :: t
      rw [ih m]

theorem setBitFree_of_free (d : List Nat) (i : Nat) (hb : bitFree d i = true) :
    setBitFree d i = d := by
  unfold setBitFree
  unfold bitFree at hb
  rw [setFreeByte_of_testBit _ _ hb]
  exact set_getD_self d (i / 8)

theorem setBitFree_idem (d : List Nat) (i : Nat) (h : i / 8 < d.length) :
    setBitFree (setBitFree d i) i = setBitFree d i := by
  have hkey : setFreeByte (byteAt (setBitFree d i) i) (i % 8)
      = setFreeByte (byteAt d i) (i % 8) := by
    rw [byteAt_setBitFree_self d i h, setFreeByte_idem]
  show (setBitFree d i).set (i / 8) (setFreeByte (byteAt (setBitFree d i) i) (i % 8))
    = setBitFree d i
  rw [hkey]
  show (d.set (i / 8) (setFreeByte (byteAt d i) (i % 8))).set (i / 8)
    (setFreeByte (byteAt d i) (i % 8)) = setBitFree d i
  rw [List.set_set]
  rfl

theorem bitFree_append_left (d e : List Nat) (i : Nat) (h : i / 8 < d.length) :
    bitFree (d ++ e) i = bitFree d i := by
  unfold bitFree byteAt
  rw [List.getD_eq_getElem?_getD, List.getD_eq_getElem?_getD, List.getElem?_append_left h]

theorem bitFree_append_byte_self (d : List Nat) (b : Nat) :
    bitFree (d ++ [b]) (8 * d.length) = (b : Nat).testBit 0 := by
  unfold bitFree byteAt
  have hdiv : 8 * d.length / 8 = d.length := by omega
  have hmod : 8 * d.length % 8 = 0 := by omega
  rw [hdiv, hmod, List.getD_eq_getElem?_getD, List.getElem?_append_right (Nat.le_refl _)]
  simp

/-! ## Characterizations of the operations -/

theorem load0_data (s : Slots) (bytes : List Nat) :
    (load0 s bytes).data = padFree bytes s.size :=
  rfl

theorem load0_head (s : Slots) (bytes : List Nat) :
    (load0 s bytes).head = scanFree (padFree bytes s.size) s.size s.head :=
  rfl

theorem load0_size (s : Slots) (bytes : List Nat) :
    (load0 s bytes).size = s.size :=
  rfl

theorem pop0_of_lt (s : Slots) (h : s.head < s.size) :
    pop0 s = { data := setBitUsed s.data s.head,
               head := scanFree (setBitUsed s.data s.head) s.size s.head,
               size := s.size } := by
  unfold pop0
  rw [if_pos h]

theorem pop0_of_ge (s : Slots) (h : ¬ s.head < s.size) : pop0 s = s := by
  unfold pop0
  rw [if_neg h]

theorem push0_of_lt (s : Slots) (slot : Nat) (h : slot / 8 < s.data.length) :
    push0 s slot = some { data := setBitFree s.data slot,
                          head := if slot < s.head then slot else s.head,
                          size := s.size } := by
  unfold push0
  rw [if_pos h]

theorem push0_of_ge (s : Slots) (slot : Nat) (h : ¬ slot / 8 < s.data.length) :
    push0 s slot = none := by
  unfold push0
  rw [if_neg h]

theorem Free1_eq_push0 (s : Slots) (slot : Nat) : Free1 s slot = push0 s slot :=
  rfl

theorem Use1_of_lt (s : Slots) (slot : Nat) (h : slot / 8 < s.data.length) :
    Use1 s slot = some { s with data := setBitUsed s.data slot } := by
  unfold Use1
  rw [if_pos h]

theorem Use1_of_ge (s : Slots) (slot : Nat) (h : ¬ slot / 8 < s.data.length) :
    Use1 s slot = none := by
  unfold Use1
  rw [if_neg h]

theorem next1_of_found (s : Slots) (h : scanFree s.data s.size s.head < s.size) :
    next1 s = (scanFree s.data s.size s.head, s) := by
  unfold next1
  rw [if_pos h]

theorem next1_of_exhausted (s : Slots) (h : ¬ scanFree s.data s.size s.head < s.size) :
    next1 s = (s.size, extend1 s 1) := by
  have harith : (extend1 s 1).size - 8 = s.size := by
    simp only [extend1]
    omega
  simp only [next1, if_neg h, harith]

theorem Next1_eq (s : Slots) :
    Next1 s = ((next1 s).1, { (next1 s).2 with head := (next1 s).1 }) :=
  rfl

theorem Next1_of_found (s : Slots) (h : scanFree s.data s.size s.head < s.size) :
    Next1 s = (scanFree s.data s.size s.head,
               { s with head := scanFree s.data s.size s.head }) := by
  rw [Next1_eq, next1_of_found s h]

theorem Next1_of_exhausted (s : Slots) (h : ¬ scanFree s.data s.size s.head < s.size) :
    Next1 s = (s.size, { data := s.data ++ [255], head := s.size, size := s.size + 8 }) := by
  rw [Next1_eq, next1_of_exhausted s h]
  have hrep : List.replicate 1 (255 : Nat) = [255] := rfl
  have h8 : 8 * 1 = 8 := rfl
  simp only [extend1, hrep, h8]

/-! ## Invariant preservation -/

theorem inv0_load (s : Slots) (bytes : List Nat) (h : s.head = 0) :
    Inv0 (load0 s bytes) := by
  refine ⟨?_, ?_, ?_⟩
  · intro i hi
    rw [load0_head] at hi
    rw [load0_data]
    exact scanFree_not_free _ _ s.head i (by omega) hi
  · rw [load0_size, load0_data]
    exact padFree_ge bytes s.size
  · rw [load0_size, load0_head]
    exact scanFree_le _ _ _

theorem inv0_pop (s : Slots) (hs : Inv0 s) : Inv0 (pop0 s) := by
  obtain ⟨hlb, hwf, hhs⟩ := hs
  by_cases h : s.head < s.size
  · rw [pop0_of_lt s h]
    refine ⟨?_, ?_, ?_⟩
    · intro i hi
      simp only at hi ⊢
      by_cases hih : i < s.head
      · rw [bitFree_setBitUsed_ne s.data s.head i (by omega)]
        exact hlb i hih
      · exact scanFree_not_free _ _ s.head i (by omega) hi
    · simp only [length_setBitUsed]
      exact hwf
    · simp only
      exact scanFree_le _ _ _
  · rw [pop0_of_ge s h]
    exact ⟨hlb, hwf, hhs⟩

theorem inv0_push (s : Slots) (slot : Nat) (s' : Slots) (hs : Inv0 s)
    (h : push0 s slot = some s') : Inv0 s' := by
  obtain ⟨hlb, hwf, hhs⟩ := hs
  by_cases hr : slot / 8 < s.data.length
  · rw [push0_of_lt s slot hr] at h
    obtain rfl := Option.some.inj h
    have hmin : (if slot < s.head then slot else s.head) ≤ s.head := by
      split <;> omega
    have hslot : (if slot < s.head then slot else s.head) ≤ slot := by
      split <;> omega
    refine ⟨?_, ?_, ?_⟩
    · intro i hi
      simp only at hi ⊢
      rw [bitFree_setBitFree_ne s.data slot i (by omega)]
      exact hlb i (by omega)
    · simp only [length_setBitFree]
      exact hwf
    · simp only
      omega
  · rw [push0_of_ge s slot hr] at h
    exact absurd h (by simp)

theorem inv1_load (s : Slots) (bytes : List Nat) (h : s.head = 0) :
    Inv1 (load1 s bytes) := by
  refine ⟨?_, rfl, ?_⟩
  · intro i hi
    unfold load1 at hi
    simp only at hi
    omega
  · unfold load1
    simp only
    omega

theorem inv1_free (s : Slots) (slot : Nat) (s' : Slots) (hs : Inv1 s)
    (h : Free1 s slot = some s') : Inv1 s' := by
  obtain ⟨hlb, hwf, hhs⟩ := hs
  rw [Free1_eq_push0] at h
  by_cases hr : slot / 8 < s.data.length
  · rw [push0_of_lt s slot hr] at h
    obtain rfl := Option.some.inj h
    have hmin : (if slot < s.head then slot else s.head) ≤ s.head := by
      split <;> omega
    have hslot : (if slot < s.head then slot else s.head) ≤ slot := by
      split <;> omega
    refine ⟨?_, ?_, ?_⟩
    · intro i hi
      simp only at hi ⊢
      rw [bitFree_setBitFree_ne s.data slot i (by omega)]
      exact hlb i (by omega)
    · simp only [length_setBitFree]
      exact hwf
    · simp only
      omega
  · rw [push0_of_ge s slot hr] at h
    exact absurd h (by simp)

theorem inv1_use (s : Slots) (slot : Nat) (s' : Slots) (hs : Inv1 s)
    (h : Use1 s slot = some s') : Inv1 s' := by
  obtain ⟨hlb, hwf, hhs⟩ := hs
  by_cases hr : slot / 8 < s.data.length
  · rw [Use1_of_lt s slot hr] at h
    obtain rfl := Option.some.inj h
    refine ⟨?_, ?_, hhs⟩
    · intro i hi
      simp only at hi ⊢
      by_cases his : i = slot
      · subst his
        exact bitFree_setBitUsed_self s.data i
      · rw [bitFree_setBitUsed_ne s.data slot i his]
        exact hlb i hi
    · simp only [length_setBitUsed]
      exact hwf
  · rw [Use1_of_ge s slot hr] at h
    exact absurd h (by simp)

theorem inv1_next (s : Slots) (hs : Inv1 s) : Inv1 (Next1 s).2 := by
  obtain ⟨hlb, hwf, hhs⟩ := hs
  by_cases h : scanFree s.data s.size s.head < s.size
  · rw [Next1_of_found s h]
    refine ⟨?_, hwf, ?_⟩
    · intro i hi
      simp only at hi ⊢
      by_cases hih : i < s.head
      · exact hlb i hih
      · exact scanFree_not_free s.data s.size s.head i (by omega) hi
    · simp only
      omega
  · rw [Next1_of_exhausted s h]
    have heq : scanFree s.data s.size s.head = s.size := by
      have := scanFree_le s.data s.size s.head
      omega
    refine ⟨?_, ?_, ?_⟩
    · intro i hi
      simp only at hi ⊢
      rw [bitFree_append_left s.data [255] i (by omega)]
      by_cases hih : i < s.head
      · exact hlb i hih
      · exact scanFree_not_free s.data s.size s.head i (by omega) (by omega)
    · simp only [List.length_append, List.length_cons, List.length_nil]
      omega
    · simp only
      omega

theorem inv1_extend (s : Slots) (n : Nat) (hs : Inv1 s) : Inv1 (extend1 s n) := by
  obtain ⟨hlb, hwf, hhs⟩ := hs
  unfold extend1
  refine ⟨?_, ?_, ?_⟩
  · intro i hi
    simp only at hi ⊢
    rw [bitFree_append_left s.data _ i (by omega)]
    exact hlb i hi
  · simp only [List.length_append, List.length_replicate]
    omega
  · simp only
    omega

theorem inv0_step (s s' : Slots) (hs : Inv0 s) (h : Step0 s s') : Inv0 s' := by
  cases h with
  | load bytes hh => exact inv0_load s bytes hh
  | pop => exact inv0_pop s hs
  | push slot t hp => exact inv0_push s slot _ hs hp

theorem inv1_step (s s' : Slots) (hs : Inv1 s) (h : Step1 s s') : Inv1 s' := by
  cases h with
  | load bytes hh => exact inv1_load s bytes hh
  | free slot t hp => exact inv1_free s slot _ hs hp
  | use slot t hp => exact inv1_use s slot _ hs hp
  | next => exact inv1_next s hs
  | ext n => exact inv1_extend s n hs

theorem reach0_inv0 (s : Slots) (h : Reach0 s) : Inv0 s := by
  induction h with
  | loaded size bytes => exact inv0_load (newSlots0 size) bytes rfl
  | pop t _ ih => exact inv0_pop t ih
  | push t slot t' hr hp ih => exact inv0_push t slot _ ih hp

theorem scanFree_start_ge (d : List Nat) (size i : Nat) (h : size ≤ i) :
    scanFree d size i = size := by
  unfold scanFree
  rw [Nat.sub_eq_zero_of_le h]
  exact scanFreeGo_zero d size i

/-- Length/size well-formedness of variant 1 is preserved by every operation,
with no assumption on the head or the bit contents. -/
theorem wflen1_step (t t' : Slots) (hw : 8 * t.data.length = t.size) (h : Step1 t t') :
    8 * t'.data.length = t'.size := by
  cases h with
  | load bytes hh => rfl
  | free slot u hp =>
    by_cases hr : slot / 8 < t.data.length
    · rw [Free1_eq_push0, push0_of_lt t slot hr] at hp
      obtain rfl := Option.some.inj hp
      simpa only [length_setBitFree] using hw
    · rw [Free1_eq_push0, push0_of_ge t slot hr] at hp
      exact absurd hp (by simp)
  | use slot u hp =>
    by_cases hr : slot / 8 < t.data.length
    · rw [Use1_of_lt t slot hr] at hp
      obtain rfl := Option.some.inj hp
      simpa only [length_setBitUsed] using hw
    · rw [Use1_of_ge t slot hr] at hp
      exact absurd hp (by simp)
  | next =>
    by_cases hc : scanFree t.data t.size t.head < t.size
    · rw [Next1_of_found t hc]
      exact hw
    · rw [Next1_of_exhausted t hc]
      simp only [List.length_append, List.length_cons, List.length_nil]
      omega
  | ext n =>
    simp only [extend1, List.length_append, List.length_replicate]
    omega

theorem Next1_head (u : Slots) : (Next1 u).2.head = (Next1 u).1 :=
  rfl

theorem Next1_fst_lt_size (u : Slots) : (Next1 u).1 < (Next1 u).2.size := by
  by_cases hc : scanFree u.data u.size u.head < u.size
  · rw [Next1_of_found u hc]
    exact hc
  · rw [Next1_of_exhausted u hc]
    simp only
    omega

theorem Next1_bitFree (u : Slots) (hw : 8 * u.data.length = u.size) :
    bitFree (Next1 u).2.data (Next1 u).1 = true := by
  by_cases hc : scanFree u.data u.size u.head < u.size
  · rw [Next1_of_found u hc]
    exact scanFree_free u.data u.size u.head hc
  · rw [Next1_of_exhausted u hc]
    simp only
    rw [← hw, bitFree_append_byte_self]
    decide

theorem Next1_fst_gt (u : Slots) (h : u.head < u.size)
    (hb : bitFree u.data u.head = false) : u.head < (Next1 u).1 := by
  have hgt := scanFree_gt u.data u.size u.head h hb
  by_cases hc : scanFree u.data u.size u.head < u.size
  · rw [Next1_of_found u hc]
    exact hgt
  · rw [Next1_of_exhausted u hc]
    exact h

/-! ## The claims -/

/-- Claim C1: Head is a sound lower bound. After every operation of either
variant (load from a fresh instance, Allocate via `pop0`/`Next1`, Release via
`push0`/`Free1`, MarkUsed via `Use1`, Grow via `extend1`), every slot index
strictly below `head` has its bit used (0), i.e. `bitFree` is `false` there.
Stated as preservation of `HeadLB` along any `Step0`/`Step1` transition from a
state satisfying the variant's invariant. -/
theorem claim1_head_lower_bound (s s' t t' : Slots) :
    (Inv0 s → Step0 s s' → ∀ i < s'.head, bitFree s'.data i = false) ∧
    (Inv1 t → Step1 t t' → ∀ i < t'.head, bitFree t'.data i = false) := by
  constructor
  · intro hs hstep
    exact (inv0_step s s' hs hstep).1
  · intro ht hstep
    exact (inv1_step t t' ht hstep).1

/-- Witness for C1 at concrete inputs: one `pop0` on a loaded variant 0 state
and one `Next1` on a loaded variant 1 state. -/
theorem claim1_head_lower_bound_witness :
    (∀ i < (pop0 (load0 (newSlots0 8) [240])).head,
      bitFree (pop0 (load0 (newSlots0 8) [240])).data i = false) ∧
    (∀ i < (Next1 (load1 newSlots1 [240])).2.head,
      bitFree (Next1 (load1 newSlots1 [240])).2.data i = false) := by
  constructor
  · exact (claim1_head_lower_bound (load0 (newSlots0 8) [240])
      (pop0 (load0 (newSlots0 8) [240])) newSlots1 newSlots1).1
      (by decide) (Step0.pop _)
  · exact (claim1_head_lower_bound newSlots1 newSlots1 (load1 newSlots1 [240])
      (Next1 (load1 newSlots1 [240])).2).2
      (by decide) (Step1.next _)

/-- Claim C2: Persist/Load round-trip. For every variant 0 state reachable by
load followed by any sequence of `pop0` (Allocate) and `push0` (Release),
saving and re-loading the written bytes with a target capacity at most the
persisted one reproduces the bitmap byte for byte; in variant 1, `load1` after
`save1` reproduces the bitmap unconditionally (no target capacity exists). -/
theorem claim2_persist_load_roundtrip (s t : Slots) (n : Nat) :
    (Reach0 s → n ≤ s.size → (load0 (newSlots0 n) (save0 s)).data = save0 s) ∧
    (load1 t (save1 t)).data = save1 t := by
  constructor
  · intro hr hn
    have hwf := (reach0_inv0 s hr).2.1
    rw [load0_data]
    exact padFree_of_le (save0 s) n (by unfold save0; omega)
  · rfl

/-- Witness for C2 at a concrete reachable state and target capacity. -/
theorem claim2_persist_load_roundtrip_witness :
    (load0 (newSlots0 8) (save0 (load0 (newSlots0 8) [15]))).data
      = save0 (load0 (newSlots0 8) [15]) :=
  (claim2_persist_load_roundtrip (load0 (newSlots0 8) [15]) newSlots1 8).1
    (Reach0.loaded 8 [15]) (by decide)

/-- Claim C3 counterexample: in the variant 0 allocator, immediately after the
construction operation `newSlots0 8` the byte length is 0 while the capacity
divided by 8 is 1, so the structural invariant fails after an operation the
claim covers. -/
theorem claim3_counterexample :
    ¬ ((newSlots0 8).size % 8 = 0 ∧ (newSlots0 8).data.length = (newSlots0 8).size / 8) := by
  decide

/-- Claim C3 (amended): in the slots.go variant the structural invariant
`Capacity mod 8 = 0` and `byte length = Capacity / 8` holds after construction
and is preserved by every operation; in the part_000 variant it can fail, e.g.
immediately after construction the byte slice is empty while the target size
is positive (and after a load of more bytes than `size / 8`, the byte length
exceeds `size / 8`). -/
theorem claim3_amended (t t' : Slots) :
    (newSlots1.size % 8 = 0 ∧ newSlots1.data.length = newSlots1.size / 8) ∧
    (8 * t.data.length = t.size → Step1 t t' →
      t'.size % 8 = 0 ∧ t'.data.length = t'.size / 8) := by
  refine ⟨by decide, ?_⟩
  intro hw hstep
  have hw' := wflen1_step t t' hw hstep
  omega

/-- Witness for C3's amended statement: one `extend1` step from a concrete
loaded variant 1 state. -/
theorem claim3_amended_witness :
    (extend1 (load1 newSlots1 [0]) 2).size % 8 = 0 ∧
    (extend1 (load1 newSlots1 [0]) 2).data.length = (extend1 (load1 newSlots1 [0]) 2).size / 8 :=
  (claim3_amended (load1 newSlots1 [0]) (extend1 (load1 newSlots1 [0]) 2)).2
    (by decide) (Step1.ext _ 2)

/-- Claim C4: no double allocation. In variant 0, `pop0` on a state whose head
is a valid slot strictly increases the head, so the slot returned by a second
Allocate differs from the first. In variant 1, after `Next1` and `Use1` of the
returned index, a further `Next1` returns a strictly larger index. -/
theorem claim4_no_double_allocation (s t : Slots) :
    (Wf0 s → s.head < s.size → s.head < (pop0 s).head) ∧
    (Wf1 t → ∀ t2, Use1 (Next1 t).2 (Next1 t).1 = some t2 →
      (Next1 t).1 < (Next1 t2).1) := by
  constructor
  · intro hwf hlt
    rw [pop0_of_lt s hlt]
    simp only
    exact scanFree_gt _ s.size s.head hlt (bitFree_setBitUsed_self s.data s.head)
  · intro hwf t2 hu
    have hw1 : 8 * (Next1 t).2.data.length = (Next1 t).2.size :=
      wflen1_step t (Next1 t).2 hwf.1 (Step1.next t)
    have hlt : (Next1 t).1 < (Next1 t).2.size := Next1_fst_lt_size t
    have hr : (Next1 t).1 / 8 < (Next1 t).2.data.length := by omega
    rw [Use1_of_lt (Next1 t).2 (Next1 t).1 hr] at hu
    obtain rfl := Option.some.inj hu
    have hgt := Next1_fst_gt
      (Slots.mk (setBitUsed (Next1 t).2.data (Next1 t).1) (Next1 t).2.head (Next1 t).2.size)
      (by simp only; rw [Next1_head]; exact hlt)
      (by simp only; rw [Next1_head]; exact bitFree_setBitUsed_self _ _)
    simp only at hgt
    rw [Next1_head] at hgt
    exact hgt

/-- Witness for C4 at concrete inputs for both variants. -/
theorem claim4_no_double_allocation_witness :
    ((load0 (newSlots0 8) [240]).head < (pop0 (load0 (newSlots0 8) [240])).head) ∧
    ((Next1 (load1 newSlots1 [240])).1 < (Next1 (Slots.mk [224] 4 8)).1) := by
  constructor
  · exact (claim4_no_double_allocation (load0 (newSlots0 8) [240]) newSlots1).1
      (by decide) (by decide)
  · exact (claim4_no_double_allocation newSlots1 (load1 newSlots1 [240])).2
      (by decide) (Slots.mk [224] 4 8) (by decide)

/-- Claim C5 counterexample: called with `Head = Capacity`, variant 0's `pop0`
silently does nothing (returns the state unchanged, with no signal of any
kind), and variant 1's `Next1` grows the bitmap by 8 slots; neither returns an
Exhaustion signal, contradicting the claim. -/
theorem claim5_counterexample :
    (load0 (newSlots0 8) [0]).head = (load0 (newSlots0 8) [0]).size ∧
    pop0 (load0 (newSlots0 8) [0]) = load0 (newSlots0 8) [0] ∧
    newSlots1.head = newSlots1.size ∧
    (Next1 newSlots1).2.size = newSlots1.size + 8 := by
  decide

/-- Claim C5 (amended): when Allocate is called in a state with
`Head = Capacity`, variant 0's `pop0` returns with no signal and leaves the
state unchanged, while variant 1's `Next1` auto-extends the bitmap by one
all-free byte (8 slots) and returns the first slot of the new region (the old
capacity); neither variant produces an Exhaustion signal. -/
theorem claim5_amended (s t : Slots) :
    (s.head = s.size → pop0 s = s) ∧
    (t.head = t.size →
      Next1 t = (t.size, { data := t.data ++ [255], head := t.size, size := t.size + 8 })) := by
  constructor
  · intro h
    exact pop0_of_ge s (by omega)
  · intro h
    have hscan : scanFree t.data t.size t.head = t.size := by
      rw [h]
      exact scanFree_start_ge t.data t.size t.size (Nat.le_refl _)
    exact Next1_of_exhausted t (by omega)

/-- Witness for C5's amended statement at concrete exhausted states. -/
theorem claim5_amended_witness :
    pop0 (load0 (newSlots0 8) [0]) = load0 (newSlots0 8) [0] ∧
    Next1 newSlots1
      = (newSlots1.size,
         { data := newSlots1.data ++ [255], head := newSlots1.size, size := newSlots1.size + 8 }) := by
  constructor
  · exact (claim5_amended (load0 (newSlots0 8) [0]) newSlots1).1 (by decide)
  · exact (claim5_amended newSlots1 newSlots1).2 rfl

/-- Claim C6 counterexample: variant 0's `load0` with two bytes (16 bits) into
an allocator constructed with target capacity 8 keeps capacity 8, not the
byte-derived 16 — the claim that Capacity becomes `byte length * 8` fails. -/
theorem claim6_counterexample :
    (load0 (newSlots0 8) [255, 255]).size ≠ 8 * ([255, 255] : List Nat).length := by
  decide

/-- Claim C6 (amended): variant 0's `load0` never changes the capacity — the
`size` field keeps the constructor-supplied target even when the bytes
represent more bits, though all loaded bytes are retained in the bitmap
(indices at or beyond `size` are simply never scanned). Variant 1's `load1`
always sets the capacity to `byte length * 8` (it takes no target), so it
never truncates. -/
theorem claim6_amended (s t : Slots) (bytes : List Nat) :
    (load0 s bytes).size = s.size ∧
    bytes.length ≤ (load0 s bytes).data.length ∧
    (load1 t bytes).size = 8 * bytes.length ∧
    (load1 t bytes).data = bytes :=
  ⟨rfl, padFree_length_ge bytes s.size, rfl, rfl⟩

/-- Claim C7 counterexample: after variant 1's `load1` of the byte `0x00`
(all 8 slots used, no free bit), the claim requires `head = Capacity = 8`, but
slots.go's load performs no scan at all and leaves `head = 0`. -/
theorem claim7_counterexample :
    (∀ i < (load1 newSlots1 [0]).size, bitFree (load1 newSlots1 [0]).data i = false) ∧
    (load1 newSlots1 [0]).size = 8 ∧
    (load1 newSlots1 [0]).head ≠ 8 := by
  decide

/-- Claim C7 (amended): in variant 0, `load0` from a freshly constructed state
(head 0) sets the head to the smallest free slot index — every index below the
head is used, the head's own bit is free whenever the head is below capacity,
and the head equals the capacity when no free bit exists. In variant 1, `load1`
does not scan: the head is left unchanged (0 on a fresh instance), and the
scan to the first free slot only happens at the next `Next1` call. -/
theorem claim7_amended (s t : Slots) (bytes bytes' : List Nat) :
    (s.head = 0 →
      (∀ j < (load0 s bytes).head, bitFree (load0 s bytes).data j = false) ∧
      ((load0 s bytes).head < (load0 s bytes).size →
        bitFree (load0 s bytes).data (load0 s bytes).head = true) ∧
      (load0 s bytes).head ≤ (load0 s bytes).size) ∧
    (load1 t bytes').head = t.head := by
  constructor
  · intro h0
    refine ⟨?_, ?_, ?_⟩
    · intro j hj
      rw [load0_head] at hj
      rw [load0_data]
      exact scanFree_not_free _ _ s.head j (by omega) hj
    · intro hlt
      rw [load0_head, load0_size] at hlt
      rw [load0_head, load0_data]
      exact scanFree_free _ _ s.head hlt
    · rw [load0_head, load0_size]
      exact scanFree_le _ _ _
  · rfl

/-- Witness for C7's amended statement at a concrete byte (`0xfe`: slot 0
used, slot 1 the smallest free index). -/
theorem claim7_amended_witness :
    ((∀ j < (load0 (newSlots0 8) [254]).head,
        bitFree (load0 (newSlots0 8) [254]).data j = false) ∧
      ((load0 (newSlots0 8) [254]).head < (load0 (newSlots0 8) [254]).size →
        bitFree (load0 (newSlots0 8) [254]).data (load0 (newSlots0 8) [254]).head = true) ∧
      (load0 (newSlots0 8) [254]).head ≤ (load0 (newSlots0 8) [254]).size) ∧
    (load1 newSlots1 [254]).head = newSlots1.head := by
  constructor
  · exact (claim7_amended (newSlots0 8) newSlots1 [254] [254]).1 rfl
  · exact (claim7_amended (newSlots0 8) newSlots1 [254] [254]).2

/-- Full behaviour of the common `push`/`Free` body on an in-range slot:
frees exactly the requested bit, applies the head-lowering rule, keeps the
size, is a no-op on the bitmap when the slot was already free, and is
idempotent. -/
theorem push0_spec (s : Slots) (slot : Nat) (hlen : slot / 8 < s.data.length) (s' : Slots)
    (h : push0 s slot = some s') :
    bitFree s'.data slot = true ∧
    (∀ j, j ≠ slot → bitFree s'.data j = bitFree s.data j) ∧
    s'.head = (if slot < s.head then slot else s.head) ∧
    s'.size = s.size ∧
    (bitFree s.data slot = true → s'.data = s.data) ∧
    push0 s' slot = some s' := by
  rw [push0_of_lt s slot hlen] at h
  obtain rfl := Option.some.inj h
  refine ⟨?_, ?_, rfl, rfl, ?_, ?_⟩
  · exact bitFree_setBitFree_self s.data slot hlen
  · intro j hj
    exact bitFree_setBitFree_ne s.data slot j hj
  · intro hb
    simp only
    exact setBitFree_of_free s.data slot hb
  · have hlen' : slot / 8 < (setBitFree s.data slot).length := by
      rw [length_setBitFree]
      exact hlen
    rw [push0_of_lt _ slot hlen']
    have hle : (if slot < s.head then slot else s.head) ≤ slot := by
      split <;> omega
    congr 1
    rw [Slots.mk.injEq]
    refine ⟨?_, ?_, rfl⟩
    · simp only
      exact setBitFree_idem s.data slot hlen
    · simp only
      rw [if_neg (by omega)]

/-- Claim C8: Release semantics. For every in-range slot (on a well-formed
state), `push0` (variant 0) and `Free1` (variant 1) succeed, set that slot's
bit free, lower the head to the slot exactly when the slot is below it, keep
the size, change no other bit, leave the bitmap bytes unchanged when the slot
was already free, and are idempotent (releasing again returns the same state). -/
theorem claim8_release_semantics (s t : Slots) (slot slot' : Nat) :
    (Wf0 s → slot < s.size →
      (push0 s slot).isSome = true ∧
      ∀ s', push0 s slot = some s' →
        bitFree s'.data slot = true ∧
        (∀ j, j ≠ slot → bitFree s'.data j = bitFree s.data j) ∧
        s'.head = (if slot < s.head then slot else s.head) ∧
        s'.size = s.size ∧
        (bitFree s.data slot = true → s'.data = s.data) ∧
        push0 s' slot = some s') ∧
    (Wf1 t → slot' < t.size →
      (Free1 t slot').isSome = true ∧
      ∀ t', Free1 t slot' = some t' →
        bitFree t'.data slot' = true ∧
        (∀ j, j ≠ slot' → bitFree t'.data j = bitFree t.data j) ∧
        t'.head = (if slot' < t.head then slot' else t.head) ∧
        t'.size = t.size ∧
        (bitFree t.data slot' = true → t'.data = t.data) ∧
        Free1 t' slot' = some t') := by
  constructor
  · intro hwf hlt
    have hlen : slot / 8 < s.data.length := by
      obtain ⟨h1, h2⟩ := hwf
      omega
    refine ⟨?_, fun s' h => push0_spec s slot hlen s' h⟩
    rw [push0_of_lt s slot hlen]
    rfl
  · intro hwf hlt
    have hlen : slot' / 8 < t.data.length := by
      obtain ⟨h1, h2⟩ := hwf
      omega
    constructor
    · rw [Free1_eq_push0, push0_of_lt t slot' hlen]
      rfl
    · intro t' h
      rw [Free1_eq_push0] at h
      have hs := push0_spec t slot' hlen t' h
      refine ⟨hs.1, hs.2.1, hs.2.2.1, hs.2.2.2.1, hs.2.2.2.2.1, ?_⟩
      rw [Free1_eq_push0]
      exact hs.2.2.2.2.2

/-- Witness for C8 at a concrete in-range used slot in both variants. -/
theorem claim8_release_semantics_witness :
    (push0 (load0 (newSlots0 8) [240]) 2).isSome = true ∧
    (Free1 (load1 newSlots1 [240]) 2).isSome = true := by
  constructor
  · exact ((claim8_release_semantics (load0 (newSlots0 8) [240])
      (load1 newSlots1 [240]) 2 2).1 (by decide) (by decide)).1
  · exact ((claim8_release_semantics (load0 (newSlots0 8) [240])
      (load1 newSlots1 [240]) 2 2).2 (by decide) (by decide)).1

/-- Claim C9 counterexample: in variant 0, a state loaded with two bytes but
capacity 8 accepts `push0` of the out-of-range slot 8 with no error of any
kind and silently mutates a bit beyond the capacity — no InvalidSlot failure,
and the bitmap does not stay unchanged. -/
theorem claim9_counterexample :
    (load0 (newSlots0 8) [0, 0]).size ≤ 8 ∧
    push0 (load0 (newSlots0 8) [0, 0]) 8 = some (Slots.mk [0, 1] 8 8) ∧
    Slots.mk [0, 1] 8 8 ≠ load0 (newSlots0 8) [0, 0] := by
  decide

/-- Claim C9 (amended): neither variant checks the slot range. In variant 1,
where the byte length times 8 always equals the capacity, `Free1` and `Use1`
with `slot ≥ Capacity` always hit the index-out-of-range panic (modelled as
`none`) before writing any byte of the bitmap; in variant 0, when the byte
slice is longer than `Capacity / 8`, `push0` on a slot at or beyond the
capacity succeeds silently, mutating a bit beyond the capacity. -/
theorem claim9_amended (s t : Slots) (slot slot' : Nat) :
    (8 * t.data.length = t.size → t.size ≤ slot' →
      Free1 t slot' = none ∧ Use1 t slot' = none) ∧
    (s.size ≤ slot → slot / 8 < s.data.length → (push0 s slot).isSome = true) := by
  constructor
  · intro hw hs
    have hlen : ¬ slot' / 8 < t.data.length := by omega
    constructor
    · rw [Free1_eq_push0]
      exact push0_of_ge t slot' hlen
    · exact Use1_of_ge t slot' hlen
  · intro hs hlen
    rw [push0_of_lt s slot hlen]
    rfl

/-- Witness for C9's amended statement at concrete out-of-range slots. -/
theorem claim9_amended_witness :
    (Free1 (load1 newSlots1 [0]) 8 = none ∧ Use1 (load1 newSlots1 [0]) 8 = none) ∧
    (push0 (load0 (newSlots0 8) [0, 0]) 8).isSome = true := by
  constructor
  · exact (claim9_amended (load0 (newSlots0 8) [0, 0]) (load1 newSlots1 [0]) 8 8).1
      (by decide) (by decide)
  · exact (claim9_amended (load0 (newSlots0 8) [0, 0]) (load1 newSlots1 [0]) 8 8).2
      (by decide) (by decide)

/-- Claim C10: in the mutex variant, `Next` alone does not consume a slot —
on any length-well-formed state a second `Next1` with no intervening `Use1` or
`Free1` returns the same index and leaves the state unchanged. -/
theorem claim10_next_idempotent (s : Slots) (hw : 8 * s.data.length = s.size) :
    Next1 (Next1 s).2 = ((Next1 s).1, (Next1 s).2) := by
  have hlt : (Next1 s).1 < (Next1 s).2.size := Next1_fst_lt_size s
  have hb : bitFree (Next1 s).2.data (Next1 s).1 = true := Next1_bitFree s hw
  have hscan : scanFree (Next1 s).2.data (Next1 s).2.size (Next1 s).2.head = (Next1 s).1 := by
    rw [Next1_head]
    exact scanFree_eq_self _ _ _ hlt hb
  rw [Next1_of_found (Next1 s).2 (by rw [hscan]; exact hlt), hscan, ← Next1_head s]

/-- Witness for C10: a concrete loaded variant 1 state (which exercises the
auto-extend branch of the first `Next1`). -/
theorem claim10_next_idempotent_witness :
    Next1 (Next1 (load1 newSlots1 [0])).2
      = ((Next1 (load1 newSlots1 [0])).1, (Next1 (load1 newSlots1 [0])).2) :=
  claim10_next_idempotent (load1 newSlots1 [0]) (by decide)

end Sharky
